import Mathlib

/-!
Verification of the probability-distribution table indexing and
parameter-subsetting mechanism of sktime.proba (base.py, normal.py,
tfd.py), via a shallow embedding of the Python code into Lean.
-/

/-- Array value stored in a wrapped distribution parameter dictionary, as
it appears to BaseTFProba subset params after coercion with np.array: a
0-d scalar, a 1-d vector, a 2-d matrix, or a non-numeric configuration
value such as a validation flag or a name string (whose np.array coercion
is also 0-dimensional). -/
inductive PParam (α : Type) where
  | d0 : α → PParam α
  | d1 : List α → PParam α
  | d2 : List (List α) → PParam α
  | cfg : String → PParam α
deriving DecidableEq

/-- Option-valued traversal of a list, modelling a Python loop that builds
a list and may raise on any element. -/
def omapM {α β : Type} (f : α → Option β) : List α → Option (List β)
  | [] => some []
  | a :: l => (f a).bind (fun b => (omapM f l).map (fun bs => b :: bs))

/-- Integer indexing of a list with numpy and pandas take semantics:
nonnegative indices index from the front, negative indices wrap from the
back, and anything out of bounds is an IndexError, modelled as none. -/
def npGet {α : Type} (xs : List α) (i : Int) : Option α :=
  if 0 ≤ i then xs[i.toNat]?
  else if (-i).toNat ≤ xs.length then xs[xs.length - (-i).toNat]?
  else none

/-- Fancy indexing of a list by a list of integers, numpy style, as in
arr[rowidx] and pandas Index.take. -/
def npTake {α : Type} (xs : List α) (is0 : List Int) : Option (List α) :=
  omapM (npGet xs) is0

/-- Reserved parameter names excluded from subsetting in
BaseTFProba subset params (base.py line 119). -/
def reservedNames : List String := ["validate_args", "allow_nan_stats", "name"]

/-- Whether a parameter name is one of the reserved configuration names,
as tested by the set difference on base.py line 120. -/
def isReserved (nm : String) : Bool := decide (nm ∈ reservedNames)

/-- One loop iteration of BaseTFProba subset params (base.py lines
123-134): a 1-d array is indexed by the row positions only, a 2-d array is
indexed by row positions on axis 0 and column positions on axis 1, and a
0-d array (scalar or configuration value) raises IndexError as soon as
either index is applied. -/
def subsetParam {α : Type} (p : PParam α) (rowidx colidx : Option (List Int)) :
    Option (PParam α) :=
  match p with
  | PParam.d1 xs =>
    match rowidx with
    | some r => (npTake xs r).map PParam.d1
    | none => some (PParam.d1 xs)
  | PParam.d2 xss =>
    (match rowidx with
      | some r => npTake xss r
      | none => some xss).bind
      (fun rows =>
        (match colidx with
          | some c => omapM (fun row => npTake row c) rows
          | none => some rows).map PParam.d2)
  | q =>
    match rowidx, colidx with
    | none, none => some q
    | _, _ => none

/-- The wrapped tensorflow-probability distribution object: its concrete
type (captured by distr type equals type of self.distr in base.py line
138) and its parameters dictionary. -/
structure TFDistr (α : Type) where
  kind : String
  params : List (String × PParam α)
deriving DecidableEq

/-- BaseTFProba subset params (base.py lines 117-135): drop the reserved
names from the parameter dictionary, then subset every remaining parameter
by the row and column positions. -/
def subsetParams {α : Type} (d : TFDistr α) (rowidx colidx : Option (List Int)) :
    Option (List (String × PParam α)) :=
  omapM (fun pr => (subsetParam pr.2 rowidx colidx).map (fun q => (pr.1, q)))
    (d.params.filter (fun pr => !(isReserved pr.1)))

/-- A probability distribution table backed by a wrapped distribution:
its dynamic Python class, its row labels (index), its column labels
(columns) and the wrapped distribution. -/
structure BaseTFProba (ρ κ α : Type) where
  cls : String
  index : List ρ
  columns : List κ
  distr : TFDistr α
deriving DecidableEq

/-- Subset not none from base.py lines 143-147: take the given positions
from a label index, or keep it whole when no positions are given. -/
def optTake {β : Type} (xs : List β) (idx : Option (List Int)) : Option (List β) :=
  match idx with
  | some is0 => npTake xs is0
  | none => some xs

/-- BaseTFProba iloc (base.py lines 137-154): subset the wrapped
distribution parameters, rebuild a distribution of the same wrapped kind,
subset the labels, and construct the result table - whose class is the
literal base class, as written on line 152. -/
def BaseTFProba.iloc {ρ κ α : Type} (t : BaseTFProba ρ κ α)
    (rowidx colidx : Option (List Int)) : Option (BaseTFProba ρ κ α) :=
  (subsetParams t.distr rowidx colidx).bind (fun sp =>
    (optTake t.index rowidx).bind (fun ix =>
      (optTake t.columns colidx).map (fun cols =>
        { cls := "_BaseTFProba", index := ix, columns := cols,
          distr := { kind := t.distr.kind, params := sp } })))

/-- Pandas Index.get_indexer_for on a unique index, applied to one key:
the position of the key in the index, or -1 when the key is absent. -/
def indexerFor {ρ : Type} [DecidableEq ρ] (idx : List ρ) (k : ρ) : Int :=
  match idx.findIdx? (fun x => x == k) with
  | some n => Int.ofNat n
  | none => -1

/-- BaseTFProba loc (base.py lines 106-115): translate each given label
list to integer positions with get_indexer_for, then delegate to iloc. -/
def BaseTFProba.loc {ρ κ α : Type} [DecidableEq ρ] [DecidableEq κ]
    (t : BaseTFProba ρ κ α) (rowidx : Option (List ρ)) (colidx : Option (List κ)) :
    Option (BaseTFProba ρ κ α) :=
  t.iloc (rowidx.map (List.map (indexerFor t.index)))
    (colidx.map (List.map (indexerFor t.columns)))

/-- BaseProba shape property (base.py lines 57-59). -/
def BaseTFProba.shape {ρ κ α : Type} (t : BaseTFProba ρ κ α) : Nat × Nat :=
  (t.index.length, t.columns.length)

/-- One component of an indexing key: a Python slice object with optional
start, stop and step, or a concrete selector payload. -/
inductive Comp (σ : Type) where
  | slice : Option Int → Option Int → Option Int → Comp σ
  | sel : σ → Comp σ
deriving DecidableEq

/-- Predicate is noneslice from base.py lines 70-73: a slice whose start,
stop and step are all None. -/
def Comp.is_noneslice {σ : Type} : Comp σ → Bool
  | Comp.slice none none none => true
  | _ => false

/-- An indexing key as received by Indexer getitem: either a bare
non-tuple key or a tuple of components. -/
inductive IKey (σ : Type) where
  | single : Comp σ → IKey σ
  | tuple : List (Comp σ) → IKey σ
deriving DecidableEq

/-- The ValueError message raised by Indexer getitem on a tuple key whose
length is not two (base.py lines 80-83). -/
def ilocErrMsg : String :=
  "there should be one or two keys when calling .loc, e.g., mydist[key], or mydist[key1, key2]"

/-- Indexer getitem (base.py lines 68-95): ref is the bound table and
method its bound loc or iloc selection. A bare key is passed as the row
argument with None columns; a two-tuple dispatches on which components are
the unconstrained full slice, returning ref itself when both are; any
other tuple arity raises ValueError. -/
def getitemEval {σ T : Type} (ref : T)
    (method : Option (Comp σ) → Option (Comp σ) → T) : IKey σ → Except String T
  | IKey.single k => Except.ok (method (some k) none)
  | IKey.tuple [rows, cols] =>
    if rows.is_noneslice && cols.is_noneslice then Except.ok ref
    else if cols.is_noneslice then Except.ok (method (some rows) none)
    else if rows.is_noneslice then Except.ok (method none (some cols))
    else Except.ok (method (some rows) (some cols))
  | IKey.tuple _ => Except.error ilocErrMsg

/-- Numpy shape of a parameter value, for arrays representable as nested
lists; a ragged 2-d nesting has no numpy shape. -/
def bcShapeOf {α : Type} : PParam α → Option (List Nat)
  | PParam.d0 _ => some []
  | PParam.cfg _ => some []
  | PParam.d1 xs => some [xs.length]
  | PParam.d2 [] => some [0, 0]
  | PParam.d2 (r0 :: rest) =>
    if rest.all (fun r => r.length == r0.length) then
      some [(r0 :: rest).length, r0.length]
    else none

/-- Broadcast of two dimension sizes under the numpy rule: equal sizes
stand, a size of one stretches, anything else is an error. -/
def bcDim (a b : Nat) : Option Nat :=
  if a = b then some a else if a = 1 then some b else if b = 1 then some a else none

/-- Broadcast of two numpy shapes of dimension at most two, right
aligned, with missing leading dimensions treated as one. -/
def bcShapes : List Nat → List Nat → Option (List Nat)
  | [], t => some t
  | s, [] => some s
  | [a], [b] => (bcDim a b).map (fun d => [d])
  | [a], [b, c] => (bcDim a c).map (fun d => [b, d])
  | [b, c], [a] => (bcDim a c).map (fun d => [b, d])
  | [a, b], [c, d] => (bcDim a c).bind (fun r => (bcDim b d).map (fun e => [r, e]))
  | _, _ => none

/-- The labels of a default pandas RangeIndex of the given length. -/
def rangeInt (n : Nat) : List Int := (List.range n).map Int.ofNat

/-- The tensorflow-probability backed Normal constructor (tfd.py lines
25-42): wrap a tfd Normal with parameters dictionary holding loc, scale
and the reserved defaults, defaulting absent labels to RangeIndex over the
broadcast batch shape of loc and scale. -/
def mkTfdNormal {α : Type} (mean sd : PParam α)
    (index0 columns0 : Option (List Int)) : Option (BaseTFProba Int Int α) :=
  (bcShapeOf mean).bind (fun sm =>
  (bcShapeOf sd).bind (fun ss =>
  (bcShapes sm ss).bind (fun sh =>
  (match index0 with
    | some i => some i
    | none => (sh[0]?).map rangeInt).bind (fun ix =>
  (match columns0 with
    | some c => some c
    | none => (sh[1]?).map rangeInt).map (fun cols =>
  { cls := "Normal", index := ix, columns := cols,
    distr := { kind := "Normal",
               params := [("loc", mean), ("scale", sd),
                          ("validate_args", PParam.cfg "False"),
                          ("allow_nan_stats", PParam.cfg "True"),
                          ("name", PParam.cfg "Normal")] } })))))

/-- The 3 by 2 table of the test scenario: a tfp-backed Normal with means
0..5 and a 2-d unit scale, default labels. -/
def tfdN32 : BaseTFProba Int Int Int :=
  { cls := "Normal", index := [0, 1, 2], columns := [0, 1],
    distr := { kind := "Normal",
               params := [("loc", PParam.d2 [[0, 1], [2, 3], [4, 5]]),
                          ("scale", PParam.d2 [[1, 1], [1, 1], [1, 1]]),
                          ("validate_args", PParam.cfg "False"),
                          ("allow_nan_stats", PParam.cfg "True"),
                          ("name", PParam.cfg "Normal")] } }

/-- The table the code actually returns for loc with the absent label 99
on tfdN32: the last row, labelled 2, selected through position -1. -/
def tfdN32lastRow : BaseTFProba Int Int Int :=
  { cls := "_BaseTFProba", index := [2], columns := [0, 1],
    distr := { kind := "Normal",
               params := [("loc", PParam.d2 [[4, 5]]),
                          ("scale", PParam.d2 [[1, 1]])] } }

/-- The table the code actually returns for iloc of row position 1 on
tfdN32: the middle row, but constructed as the literal base class. -/
def tfdN32midRow : BaseTFProba Int Int Int :=
  { cls := "_BaseTFProba", index := [1], columns := [0, 1],
    distr := { kind := "Normal",
               params := [("loc", PParam.d2 [[2, 3]]),
                          ("scale", PParam.d2 [[1, 1]])] } }

/-- A table with a 1-d scale parameter, used to exercise the 1-d
broadcast rule. -/
def tHalf : BaseTFProba Int Int Int :=
  { cls := "Normal", index := [0, 1], columns := [0],
    distr := { kind := "HalfNormal",
               params := [("scale", PParam.d1 [5, 7]),
                          ("name", PParam.cfg "HalfNormal")] } }

/-- Result of selecting column 0 of tHalf: the 1-d parameter is kept
whole. -/
def tHalfCols : BaseTFProba Int Int Int :=
  { cls := "_BaseTFProba", index := [0, 1], columns := [0],
    distr := { kind := "HalfNormal", params := [("scale", PParam.d1 [5, 7])] } }

/-- Result of selecting row 1 and column 0 of tHalf. -/
def tHalfRowCol : BaseTFProba Int Int Int :=
  { cls := "_BaseTFProba", index := [1], columns := [0],
    distr := { kind := "HalfNormal", params := [("scale", PParam.d1 [7])] } }

/-- Result of selecting row 1 of tHalf with no column selection. -/
def tHalfRow : BaseTFProba Int Int Int :=
  { cls := "_BaseTFProba", index := [1], columns := [0],
    distr := { kind := "HalfNormal", params := [("scale", PParam.d1 [7])] } }

/-- Expansion of a 1-d list to a target width under the numpy broadcast
rule: kept if already of that width, stretched if of width one. -/
def expandRowTo {α : Type} (m : Nat) (xs : List α) : Option (List α) :=
  if xs.length = m then some xs
  else
    match xs with
    | [x] => some (List.replicate m x)
    | _ => none

/-- Expansion of a 2-d nesting to a target row count under the numpy
broadcast rule: kept if already that many rows, stretched if one row. -/
def expandRowsTo {α : Type} (n : Nat) (xss : List (List α)) :
    Option (List (List α)) :=
  if xss.length = n then some xss
  else
    match xss with
    | [row] => some (List.replicate n row)
    | _ => none

/-- Expansion of an array to a target broadcast shape of dimension at
most two, as done by numpy broadcast_arrays. -/
def expandTo {α : Type} (p : PParam α) : List Nat → Option (PParam α)
  | [] =>
    match p with
    | PParam.d0 a => some (PParam.d0 a)
    | _ => none
  | [n] =>
    match p with
    | PParam.d0 a => some (PParam.d1 (List.replicate n a))
    | PParam.d1 xs => (expandRowTo n xs).map PParam.d1
    | _ => none
  | [n, m] =>
    match p with
    | PParam.d0 a => some (PParam.d2 (List.replicate n (List.replicate m a)))
    | PParam.d1 xs =>
      (expandRowTo m xs).map (fun row => PParam.d2 (List.replicate n row))
    | PParam.d2 xss =>
      (expandRowsTo n xss).bind
        (fun rows => (omapM (expandRowTo m) rows).map PParam.d2)
    | _ => none
  | _ => none

/-- Numpy broadcast_arrays on two arrays of dimension at most two, as
called in normal.py line 53: compute the common broadcast shape and
expand both arguments to it. -/
def broadcast2 {α : Type} (p q : PParam α) : Option (PParam α × PParam α) :=
  (bcShapeOf p).bind (fun sp =>
  (bcShapeOf q).bind (fun sq =>
  (bcShapes sp sq).bind (fun sh =>
  (expandTo p sh).bind (fun p2 =>
  (expandTo q sh).map (fun q2 => (p2, q2))))))

/-- The native Normal distribution table (normal.py lines 36-50): the raw
constructor arguments mu and sigma, the broadcast parameter arrays, and
the labels. -/
structure NormalTable (α : Type) where
  mu : PParam α
  sigma : PParam α
  bc_mu : PParam α
  bc_sigma : PParam α
  index : List Int
  columns : List Int
deriving DecidableEq

/-- The native Normal constructor (normal.py lines 36-50): broadcast mu
and sigma against each other, then default each absent label axis to a
RangeIndex over the corresponding dimension of the broadcast shape (an
absent dimension is an IndexError); explicitly passed labels are stored
as given, without validation. -/
def NormalTable.make {α : Type} (mu sigma : PParam α)
    (index0 columns0 : Option (List Int)) : Option (NormalTable α) :=
  (broadcast2 mu sigma).bind (fun bc =>
  (bcShapeOf bc.1).bind (fun sh =>
  (match index0 with
    | some i => some i
    | none => (sh[0]?).map rangeInt).bind (fun ix =>
  (match columns0 with
    | some c => some c
    | none => (sh[1]?).map rangeInt).map (fun cols =>
  { mu := mu, sigma := sigma, bc_mu := bc.1, bc_sigma := bc.2,
    index := ix, columns := cols }))))

/-- BaseProba shape property, inherited by the native Normal. -/
def NormalTable.shape {α : Type} (t : NormalTable α) : Nat × Nat :=
  (t.index.length, t.columns.length)

/-- A 2-d parameter array has exactly r rows each of width c; arrays of
other dimensionality are unconstrained by this predicate. -/
def PParam.hasShape2 {α : Type} (p : PParam α) (r c : Nat) : Prop :=
  match p with
  | PParam.d2 xss => xss.length = r ∧ ∀ row ∈ xss, row.length = c
  | _ => True

instance {α : Type} (p : PParam α) (r c : Nat) : Decidable (PParam.hasShape2 p r c) :=
  match p with
  | PParam.d0 _ => isTrue trivial
  | PParam.d1 _ => isTrue trivial
  | PParam.cfg _ => isTrue trivial
  | PParam.d2 xss =>
    inferInstanceAs (Decidable (xss.length = r ∧ ∀ row ∈ xss, row.length = c))

/-- Every 2-d parameter array of the wrapped distribution has exactly the
shape given by the label lengths. -/
def shapeInvariant {ρ κ α : Type} (t : BaseTFProba ρ κ α) : Prop :=
  ∀ pr ∈ t.distr.params, PParam.hasShape2 pr.2 t.index.length t.columns.length

instance {ρ κ α : Type} (t : BaseTFProba ρ κ α) : Decidable (shapeInvariant t) :=
  inferInstanceAs (Decidable (∀ pr ∈ t.distr.params,
    PParam.hasShape2 pr.2 t.index.length t.columns.length))

/-- A native Normal table violating the unconditional shape claim:
explicit three-element row labels over a 2 by 2 broadcast mean. -/
def nBad : NormalTable Int :=
  { mu := PParam.d2 [[0, 1], [2, 3]], sigma := PParam.d0 1,
    bc_mu := PParam.d2 [[0, 1], [2, 3]], bc_sigma := PParam.d2 [[1, 1], [1, 1]],
    index := [1, 2, 5], columns := [0, 1] }

/-- The native Normal table of the spec scenario, mean 0..5 over 3 rows
and 2 columns, scalar sd, default labels. -/
def nGood : NormalTable Int :=
  { mu := PParam.d2 [[0, 1], [2, 3], [4, 5]], sigma := PParam.d0 1,
    bc_mu := PParam.d2 [[0, 1], [2, 3], [4, 5]],
    bc_sigma := PParam.d2 [[1, 1], [1, 1], [1, 1]],
    index := [0, 1, 2], columns := [0, 1] }

/-- C1: on the table with row labels 0, 1, 2, the label-based selection
of the absent label 99 does not raise a lookup failure: get_indexer_for
maps the missing label to position -1, which numpy and pandas take wrap
around to the last position, so the code silently returns the sub-table
of the last row (labelled 2, loc values 4 and 5). -/
theorem c1_missing_label_silently_wraps :
    mkTfdNormal (PParam.d2 [[(0 : Int), 1], [2, 3], [4, 5]])
        (PParam.d2 [[1, 1], [1, 1], [1, 1]]) none none = some tfdN32
    ∧ tfdN32.loc (some [99]) none = some tfdN32lastRow
    ∧ tfdN32lastRow.index = [2]
    ∧ ("loc", PParam.d2 [[(4 : Int), 5]]) ∈ tfdN32lastRow.distr.params := by
  refine ⟨rfl, rfl, rfl, ?_⟩
  exact List.mem_cons_self _ _

/-- C2: position-based selection on a tfp-backed Normal table does not
return a table of the same concrete kind: iloc constructs the literal
base class on base.py line 152, so selecting row 1 of a Normal yields a
table whose class is the base class, not Normal - even though the
parameter set and labels are correctly subset. -/
theorem c2_iloc_returns_base_class :
    mkTfdNormal (PParam.d2 [[(0 : Int), 1], [2, 3], [4, 5]])
        (PParam.d2 [[1, 1], [1, 1], [1, 1]]) none none = some tfdN32
    ∧ tfdN32.cls = "Normal"
    ∧ tfdN32.iloc (some [1]) none = some tfdN32midRow
    ∧ tfdN32midRow.cls = "_BaseTFProba"
    ∧ ¬ tfdN32midRow.cls = tfdN32.cls
    ∧ tfdN32midRow.index = [1]
    ∧ ("loc", PParam.d2 [[(2 : Int), 3]]) ∈ tfdN32midRow.distr.params := by
  refine ⟨rfl, rfl, rfl, rfl, ?_, rfl, ?_⟩
  · decide
  · exact List.mem_cons_self _ _

/-- C3: indexing with the unconstrained full-range slice on both
components returns the indexer reference itself: the bound selection
method is never invoked (the result does not depend on it) and the very
table object is handed back, labels and parameters untouched. -/
theorem c3_full_noneslice_returns_ref {σ T : Type} (ref : T)
    (method : Option (Comp σ) → Option (Comp σ) → T) :
    getitemEval ref method
      (IKey.tuple [Comp.slice none none none, Comp.slice none none none]) =
      Except.ok ref := rfl

/-- C8: a bare non-tuple key is passed as the row argument with None as
the column argument; in a two-component key with exactly one
unconstrained full slice, that axis is passed as None and the other
component is passed through. -/
theorem c8_key_normalization {σ T : Type} (ref : T)
    (method : Option (Comp σ) → Option (Comp σ) → T) (k r c : Comp σ) :
    (getitemEval ref method (IKey.single k) = Except.ok (method (some k) none))
    ∧ (c.is_noneslice = true → r.is_noneslice = false →
        getitemEval ref method (IKey.tuple [r, c]) = Except.ok (method (some r) none))
    ∧ (r.is_noneslice = true → c.is_noneslice = false →
        getitemEval ref method (IKey.tuple [r, c]) = Except.ok (method none (some c))) := by
  refine ⟨rfl, ?_, ?_⟩ <;> intro h1 h2 <;> simp [getitemEval, h1, h2]

/-- Witness for C8, at the single-noneslice components with a concrete
pairing method. -/
theorem c8_key_normalization_witness :
    (getitemEval (σ := Unit) (none, none) (fun a b => (a, b))
      (IKey.tuple [Comp.sel (), Comp.slice none none none]) =
      Except.ok (some (Comp.sel ()), none))
    ∧ (getitemEval (σ := Unit) (none, none) (fun a b => (a, b))
      (IKey.tuple [Comp.slice none none none, Comp.sel ()]) =
      Except.ok (none, some (Comp.sel ()))) :=
  ⟨(c8_key_normalization (none, none) (fun a b => (a, b)) (Comp.sel ())
      (Comp.sel ()) (Comp.slice none none none)).2.1 (by decide) (by decide),
   (c8_key_normalization (none, none) (fun a b => (a, b)) (Comp.sel ())
      (Comp.slice none none none) (Comp.sel ())).2.2 (by decide) (by decide)⟩

/-- C9: a tuple key with more than two components fails with the
ValueError naming the expected arity of one or two selectors, and no
selection is performed (the result does not depend on the bound method). -/
theorem c9_tuple_arity_error {σ T : Type} (ref : T)
    (method : Option (Comp σ) → Option (Comp σ) → T) (comps : List (Comp σ))
    (h : 2 < comps.length) :
    getitemEval ref method (IKey.tuple comps) =
      Except.error "there should be one or two keys when calling .loc, e.g., mydist[key], or mydist[key1, key2]" := by
  match comps with
  | a :: b :: d :: rest => rfl
  | [] => simp at h
  | [a] => simp at h
  | [a, b] => simp at h

/-- Witness for C9, at a concrete three-component tuple key. -/
theorem c9_tuple_arity_error_witness :
    getitemEval (σ := Unit) (0 : Nat) (fun _ _ => 1)
      (IKey.tuple [Comp.sel (), Comp.sel (), Comp.sel ()]) =
      Except.error "there should be one or two keys when calling .loc, e.g., mydist[key], or mydist[key1, key2]" :=
  c9_tuple_arity_error 0 (fun _ _ => 1) [Comp.sel (), Comp.sel (), Comp.sel ()]
    (by decide)

/-- C10: a tuple key of length one is rejected with the same ValueError
as overlong tuples: only a bare key or a tuple of exactly two components
is accepted, so a one-element tuple is not treated as a row selector. -/
theorem c10_singleton_tuple_error {σ T : Type} (ref : T)
    (method : Option (Comp σ) → Option (Comp σ) → T) (c : Comp σ) :
    getitemEval ref method (IKey.tuple [c]) = Except.error ilocErrMsg := rfl

/-- Unfolding lemma for omapM on a cons cell. -/
theorem omapM_cons {α β : Type} (f : α → Option β) (a : α) (l : List α) :
    omapM f (a :: l) = (f a).bind (fun b => (omapM f l).map (fun bs => b :: bs)) := rfl

/-- A successful omapM preserves list length. -/
theorem omapM_length {α β : Type} (f : α → Option β) :
    ∀ {l : List α} {l2 : List β}, omapM f l = some l2 → l2.length = l.length := by
  intro l
  induction l with
  | nil =>
    intro l2 h
    simp [omapM] at h
    simp [← h]
  | cons a l ih =>
    intro l2 h
    rw [omapM_cons, Option.bind_eq_some] at h
    obtain ⟨b, hb, h2⟩ := h
    rw [Option.map_eq_some'] at h2
    obtain ⟨bs, hbs, rfl⟩ := h2
    simp [ih hbs]

/-- Every element of a successful omapM image comes from a source
element. -/
theorem omapM_mem {α β : Type} (f : α → Option β) :
    ∀ {l : List α} {l2 : List β}, omapM f l = some l2 →
      ∀ b ∈ l2, ∃ a ∈ l, f a = some b := by
  intro l
  induction l with
  | nil =>
    intro l2 h b hb
    simp [omapM] at h
    rw [h] at hb
    cases hb
  | cons a l ih =>
    intro l2 h b hb
    rw [omapM_cons, Option.bind_eq_some] at h
    obtain ⟨b1, hb1, h2⟩ := h
    rw [Option.map_eq_some'] at h2
    obtain ⟨bs, hbs, rfl⟩ := h2
    rcases List.mem_cons.mp hb with hb | hb
    · exact ⟨a, List.mem_cons_self a l, by rw [hb]; exact hb1⟩
    · obtain ⟨a2, ha2, hfa2⟩ := ih hbs b hb
      exact ⟨a2, List.mem_cons_of_mem a ha2, hfa2⟩

/-- A source element mapped successfully lies in the omapM image. -/
theorem omapM_mem_of {α β : Type} (f : α → Option β) :
    ∀ {l : List α} {l2 : List β}, omapM f l = some l2 →
      ∀ a ∈ l, ∀ b, f a = some b → b ∈ l2 := by
  intro l
  induction l with
  | nil => intro l2 h a ha; cases ha
  | cons a0 l ih =>
    intro l2 h a ha b hfa
    rw [omapM_cons, Option.bind_eq_some] at h
    obtain ⟨b1, hb1, h2⟩ := h
    rw [Option.map_eq_some'] at h2
    obtain ⟨bs, hbs, rfl⟩ := h2
    rcases List.mem_cons.mp ha with rfl | ha
    · rw [hfa] at hb1
      obtain rfl := Option.some.inj hb1
      exact List.mem_cons_self _ _
    · exact List.mem_cons_of_mem _ (ih hbs a ha b hfa)

/-- omapM transports a projection preserved by the elementwise function. -/
theorem omapM_map_proj {α β γ : Type} (f : α → Option β) (k1 : α → γ) (k2 : β → γ)
    (hk : ∀ a b, f a = some b → k2 b = k1 a) :
    ∀ {l : List α} {l2 : List β}, omapM f l = some l2 → l2.map k2 = l.map k1 := by
  intro l
  induction l with
  | nil =>
    intro l2 h
    simp [omapM] at h
    simp [← h]
  | cons a l ih =>
    intro l2 h
    rw [omapM_cons, Option.bind_eq_some] at h
    obtain ⟨b, hb, h2⟩ := h
    rw [Option.map_eq_some'] at h2
    obtain ⟨bs, hbs, rfl⟩ := h2
    simp [List.map_cons, hk a b hb, ih hbs]

/-- Parallel membership transfer between two successful omapM runs whose
elementwise functions agree on images satisfying P. -/
theorem omapM_mem_iff {α β : Type} (f g : α → Option β) (P : β → Prop)
    (hfg : ∀ a b, P b → (f a = some b ↔ g a = some b)) :
    ∀ {l : List α} {l1 l2 : List β}, omapM f l = some l1 → omapM g l = some l2 →
      ∀ b, P b → (b ∈ l1 ↔ b ∈ l2) := by
  intro l
  induction l with
  | nil =>
    intro l1 l2 h1 h2 b hP
    simp [omapM] at h1 h2
    rw [h1, h2]
  | cons a l ih =>
    intro l1 l2 h1 h2 b hP
    rw [omapM_cons, Option.bind_eq_some] at h1 h2
    obtain ⟨b1, hb1, h1'⟩ := h1
    rw [Option.map_eq_some'] at h1'
    obtain ⟨bs1, hbs1, rfl⟩ := h1'
    obtain ⟨b2, hb2, h2'⟩ := h2
    rw [Option.map_eq_some'] at h2'
    obtain ⟨bs2, hbs2, rfl⟩ := h2'
    constructor
    · intro hb
      rcases List.mem_cons.mp hb with rfl | hb
      · have hg : g a = some b := (hfg a b hP).mp hb1
        rw [hg] at hb2
        obtain rfl := Option.some.inj hb2
        exact List.mem_cons_self _ _
      · exact List.mem_cons_of_mem _ ((ih hbs1 hbs2 b hP).mp hb)
    · intro hb
      rcases List.mem_cons.mp hb with rfl | hb
      · have hf : f a = some b := (hfg a b hP).mpr hb2
        rw [hf] at hb1
        obtain rfl := Option.some.inj hb1
        exact List.mem_cons_self _ _
      · exact List.mem_cons_of_mem _ ((ih hbs1 hbs2 b hP).mpr hb)

/-- Running omapM with f and then with g over its result is one omapM run
with the Kleisli composite. -/
theorem omapM_bind_omapM {α β γ : Type} (f : α → Option β) (g : β → Option γ) :
    ∀ l : List α, (omapM f l).bind (omapM g) = omapM (fun a => (f a).bind g) l := by
  intro l
  induction l with
  | nil => rfl
  | cons a l ih =>
    cases hfa : f a with
    | none => simp [omapM_cons, hfa]
    | some b =>
      cases hfl : omapM f l with
      | none =>
        rw [hfl] at ih
        simp only [Option.none_bind] at ih
        simp only [omapM_cons, hfa, hfl, Option.some_bind, Option.map_none',
          Option.bind_none, ← ih]
        simp
      | some bs =>
        rw [hfl] at ih
        simp only [Option.some_bind] at ih
        simp only [omapM_cons, hfa, hfl, Option.some_bind, Option.map_some',
          ← ih]

/-- Subsetting rows and then columns of one parameter equals subsetting
both at once, since the two axes are indexed independently. -/
theorem subsetParam_comp {α : Type} (p : PParam α) (R C : List Int) :
    (subsetParam p (some R) none).bind (fun q => subsetParam q none (some C)) =
      subsetParam p (some R) (some C) := by
  cases p with
  | d1 xs => cases h : npTake xs R <;> simp [subsetParam, h]
  | d2 xss => cases h : npTake xss R <;> simp [subsetParam, h]
  | d0 a => rfl
  | cfg s => rfl

/-- Inversion of a successful iloc call into its three components. -/
theorem iloc_inv {ρ κ α : Type} {t u : BaseTFProba ρ κ α} {r c : Option (List Int)}
    (h : t.iloc r c = some u) :
    ∃ sp ix cols, subsetParams t.distr r c = some sp ∧ optTake t.index r = some ix ∧
      optTake t.columns c = some cols ∧
      u = { cls := "_BaseTFProba", index := ix, columns := cols,
            distr := { kind := t.distr.kind, params := sp } } := by
  rw [BaseTFProba.iloc, Option.bind_eq_some] at h
  obtain ⟨sp, hsp, h⟩ := h
  rw [Option.bind_eq_some] at h
  obtain ⟨ix, hix, h⟩ := h
  rw [Option.map_eq_some'] at h
  obtain ⟨cols, hcols, h⟩ := h
  exact ⟨sp, ix, cols, hsp, hix, hcols, h.symm⟩

/-- A successfully subset parameter dictionary contains no reserved name,
so filtering it again for reserved names is the identity. -/
theorem subsetParams_filter_noop {α : Type} {d : TFDistr α} {r c : Option (List Int)}
    {sp : List (String × PParam α)} (h : subsetParams d r c = some sp) :
    sp.filter (fun pr => !(isReserved pr.1)) = sp := by
  rw [List.filter_eq_self]
  intro pr hpr
  rw [subsetParams] at h
  obtain ⟨a, ha, hfa⟩ := omapM_mem _ h pr hpr
  rw [Option.map_eq_some'] at hfa
  obtain ⟨q, hq, rfl⟩ := hfa
  simpa using (List.mem_filter.mp ha).2

/-- C4: selecting rows R and then, on the result, columns C is the very
same operation as selecting rows and columns simultaneously: the two
position-based selections compose to the simultaneous one, labels and
parameter values included. -/
theorem c4_row_then_col_eq_simultaneous {ρ κ α : Type} (t : BaseTFProba ρ κ α)
    (R C : List Int) :
    (t.iloc (some R) none).bind (fun t1 => t1.iloc none (some C)) =
      t.iloc (some R) (some C) := by
  have stepA : ∀ pr : String × PParam α,
      ((subsetParam pr.2 (some R) none).map (fun q => (pr.1, q))).bind
          (fun pr2 => (subsetParam pr2.2 none (some C)).map (fun q => (pr2.1, q))) =
        (subsetParam pr.2 (some R) (some C)).map (fun q => (pr.1, q)) := by
    intro pr
    rw [← subsetParam_comp pr.2 R C]
    cases hq : subsetParam pr.2 (some R) none <;> simp [hq]
  have stepB : subsetParams t.distr (some R) (some C) =
      (subsetParams t.distr (some R) none).bind
        (omapM (fun pr2 => (subsetParam pr2.2 none (some C)).map (fun q => (pr2.1, q)))) := by
    simp only [subsetParams, omapM_bind_omapM]
    congr 1
    funext pr
    exact (stepA pr).symm
  cases h1 : subsetParams t.distr (some R) none with
  | none =>
    have h3 : subsetParams t.distr (some R) (some C) = none := by
      rw [stepB, h1]
      rfl
    simp [BaseTFProba.iloc, h1, h3]
  | some sp =>
    have hfil : sp.filter (fun pr => !(isReserved pr.1)) = sp :=
      subsetParams_filter_noop h1
    have h3 : subsetParams t.distr (some R) (some C) =
        omapM (fun pr2 => (subsetParam pr2.2 none (some C)).map (fun q => (pr2.1, q))) sp := by
      rw [stepB, h1]
      rfl
    cases h2 : npTake t.index R with
    | none =>
      have hLeft : t.iloc (some R) none = none := by
        simp [BaseTFProba.iloc, h1, optTake, h2]
      rw [hLeft, Option.none_bind, BaseTFProba.iloc, h3]
      cases homap : omapM (fun pr2 =>
          (subsetParam pr2.2 none (some C)).map (fun q => (pr2.1, q))) sp <;>
        simp [optTake, h2]
    | some ix =>
      have hLeft : t.iloc (some R) none = some
          { cls := "_BaseTFProba", index := ix, columns := t.columns,
            distr := { kind := t.distr.kind, params := sp } } := by
        simp [BaseTFProba.iloc, h1, optTake, h2]
      have hsub1 : subsetParams
          ({ kind := t.distr.kind, params := sp } : TFDistr α) none (some C) =
          omapM (fun pr2 => (subsetParam pr2.2 none (some C)).map (fun q => (pr2.1, q))) sp := by
        simp [subsetParams, hfil]
      rw [hLeft, Option.some_bind, BaseTFProba.iloc, BaseTFProba.iloc, hsub1, h3]
      simp [optTake, h2]

/-- An optional bind whose success is always a 2-d array never produces
a 1-d array. -/
theorem bind_map_d2_ne_d1 {α : Type} (o : Option (List (List α)))
    (g : List (List α) → Option (List (List α))) (xs : List α) :
    o.bind (fun rows => (g rows).map PParam.d2) ≠ some (PParam.d1 xs) := by
  cases o with
  | none => simp
  | some rows => cases h : g rows <;> simp [h]

/-- A subsetting result that is a 1-d array comes from a 1-d parameter,
so it is wholly independent of the column positions. -/
theorem subsetParam_d1_inv {α : Type} {p : PParam α} {r c : Option (List Int)}
    {xs : List α} (h : subsetParam p r c = some (PParam.d1 xs)) :
    ∀ c2 : Option (List Int), subsetParam p r c2 = some (PParam.d1 xs) := by
  intro c2
  cases p with
  | d1 ys => exact h
  | d2 yss =>
    cases c with
    | none =>
      exact absurd h (bind_map_d2_ne_d1
        (match r with | some rr => npTake yss rr | none => some yss)
        (fun rows => some rows) xs)
    | some cc =>
      exact absurd h (bind_map_d2_ne_d1
        (match r with | some rr => npTake yss rr | none => some yss)
        (fun rows => omapM (fun row => npTake row cc) rows) xs)
  | d0 a =>
    exfalso
    cases r <;> cases c <;> simp [subsetParam] at h
  | cfg s =>
    exfalso
    cases r <;> cases c <;> simp [subsetParam] at h

/-- C5: a parameter stored as a 1-d array of one value per row is
affected only by the row positions: a pure column selection leaves the
entry untouched in the result, and for any row selection the 1-d entries
of the result are the same whether or not columns were also selected. -/
theorem c5_one_d_param_ignores_columns {ρ κ α : Type} :
    (∀ (t u : BaseTFProba ρ κ α) (c : List Int) (nm : String) (xs : List α),
      t.iloc none (some c) = some u → (nm, PParam.d1 xs) ∈ t.distr.params →
      nm ∉ reservedNames → (nm, PParam.d1 xs) ∈ u.distr.params)
    ∧ (∀ (t u u' : BaseTFProba ρ κ α) (r : Option (List Int)) (c : List Int)
        (nm : String) (xs : List α),
      t.iloc r (some c) = some u → t.iloc r none = some u' →
      ((nm, PParam.d1 xs) ∈ u.distr.params ↔ (nm, PParam.d1 xs) ∈ u'.distr.params)) := by
  constructor
  · intro t u c nm xs h hmem hnr
    obtain ⟨sp, ix, cols, hsp, hix, hcols, rfl⟩ := iloc_inv h
    rw [subsetParams] at hsp
    have hmemF : (nm, PParam.d1 xs) ∈
        t.distr.params.filter (fun pr => !(isReserved pr.1)) := by
      rw [List.mem_filter]
      exact ⟨hmem, by simpa [isReserved] using hnr⟩
    have hin : ((nm, PParam.d1 xs) : String × PParam α) ∈ sp := by
      refine omapM_mem_of _ hsp _ hmemF _ ?_
      simp [subsetParam]
    simpa using hin
  · intro t u u' r c nm xs h h'
    obtain ⟨sp, ix, cols, hsp, hix, hcols, rfl⟩ := iloc_inv h
    obtain ⟨sp', ix', cols', hsp', hix', hcols', rfl⟩ := iloc_inv h'
    rw [subsetParams] at hsp hsp'
    have hfg : ∀ (a : String × PParam α) (b : String × PParam α),
        (∃ ys : List α, b.2 = PParam.d1 ys) →
        (((subsetParam a.2 r (some c)).map (fun q => (a.1, q)) = some b) ↔
          ((subsetParam a.2 r none).map (fun q => (a.1, q)) = some b)) := by
      intro a b hP
      obtain ⟨ys, hys⟩ := hP
      constructor
      · intro hf
        rw [Option.map_eq_some'] at hf ⊢
        obtain ⟨q, hq, rfl⟩ := hf
        have hq2 : q = PParam.d1 ys := hys
        subst hq2
        exact ⟨PParam.d1 ys, subsetParam_d1_inv hq none, rfl⟩
      · intro hf
        rw [Option.map_eq_some'] at hf ⊢
        obtain ⟨q, hq, rfl⟩ := hf
        have hq2 : q = PParam.d1 ys := hys
        subst hq2
        exact ⟨PParam.d1 ys, subsetParam_d1_inv hq (some c), rfl⟩
    have := omapM_mem_iff _ _ (fun b => ∃ ys : List α, b.2 = PParam.d1 ys)
      hfg hsp hsp' (nm, PParam.d1 xs) ⟨xs, rfl⟩
    simpa using this

/-- Witness for C5 at the concrete 1-d scale parameter of tHalf. -/
theorem c5_one_d_param_ignores_columns_witness :
    (("scale", PParam.d1 [(5 : Int), 7]) ∈ tHalfCols.distr.params)
    ∧ ((("scale", PParam.d1 [(7 : Int)]) ∈ tHalfRowCol.distr.params) ↔
        (("scale", PParam.d1 [(7 : Int)]) ∈ tHalfRow.distr.params)) :=
  ⟨c5_one_d_param_ignores_columns.1 tHalf tHalfCols [0] "scale" [5, 7]
      (by rfl) (by decide) (by decide),
   c5_one_d_param_ignores_columns.2 tHalf tHalfRowCol tHalfRow (some [1]) [0]
      "scale" [7] (by rfl) (by rfl)⟩

/-- C7: position-based selection excludes exactly the reserved
configuration names from subsetting: the result parameter dictionary
holds precisely the non-reserved names of the original (reserved names
are dropped, so the rebuilt distribution falls back to its constructor
defaults for them), and each surviving entry is the row and column subset
of the original entry. -/
theorem c7_reserved_params_excluded {ρ κ α : Type} (t u : BaseTFProba ρ κ α)
    (r c : Option (List Int)) (h : t.iloc r c = some u) :
    (∀ nm : String, nm ∈ u.distr.params.map Prod.fst ↔
      (nm ∈ t.distr.params.map Prod.fst ∧ nm ∉ reservedNames))
    ∧ (∀ (nm : String) (q : PParam α), (nm, q) ∈ u.distr.params →
      ∃ p, (nm, p) ∈ t.distr.params ∧ subsetParam p r c = some q) := by
  obtain ⟨sp, ix, cols, hsp, hix, hcols, rfl⟩ := iloc_inv h
  rw [subsetParams] at hsp
  constructor
  · intro nm
    have hkeys : sp.map Prod.fst =
        (t.distr.params.filter (fun pr => !(isReserved pr.1))).map Prod.fst := by
      refine omapM_map_proj _ Prod.fst Prod.fst ?_ hsp
      intro a b hab
      rw [Option.map_eq_some'] at hab
      obtain ⟨q, hq, rfl⟩ := hab
      rfl
    show nm ∈ sp.map Prod.fst ↔ _
    rw [hkeys]
    simp only [List.mem_map, List.mem_filter]
    constructor
    · rintro ⟨pr, ⟨hpr, hpred⟩, rfl⟩
      refine ⟨⟨pr, hpr, rfl⟩, ?_⟩
      simpa [isReserved] using hpred
    · rintro ⟨⟨pr, hpr, rfl⟩, hnr⟩
      exact ⟨pr, ⟨hpr, by simpa [isReserved] using hnr⟩, rfl⟩
  · intro nm q hq
    obtain ⟨a, ha, hfa⟩ := omapM_mem _ hsp _ hq
    rw [Option.map_eq_some'] at hfa
    obtain ⟨q0, hq0, heq⟩ := hfa
    injection heq with h1 h2
    subst h1
    subst h2
    refine ⟨a.2, ?_, hq0⟩
    simpa using (List.mem_filter.mp ha).1

/-- Witness for C7 on the concrete 3 by 2 tfp-backed Normal table. -/
theorem c7_reserved_params_excluded_witness :
    ("validate_args" ∈ tfdN32midRow.distr.params.map Prod.fst ↔
      ("validate_args" ∈ tfdN32.distr.params.map Prod.fst ∧
        "validate_args" ∉ reservedNames))
    ∧ ("loc" ∈ tfdN32midRow.distr.params.map Prod.fst ↔
      ("loc" ∈ tfdN32.distr.params.map Prod.fst ∧ "loc" ∉ reservedNames)) :=
  ⟨(c7_reserved_params_excluded tfdN32 tfdN32midRow (some [1]) none (by rfl)).1
      "validate_args",
   (c7_reserved_params_excluded tfdN32 tfdN32midRow (some [1]) none (by rfl)).1
      "loc"⟩

/-- A successful integer lookup returns an element of the list. -/
theorem npGet_mem {α : Type} {xs : List α} {i : Int} {y : α}
    (h : npGet xs i = some y) : y ∈ xs := by
  rw [npGet] at h
  split at h
  · exact List.getElem?_mem h
  · split at h
    · exact List.getElem?_mem h
    · cases h

/-- A successful fancy indexing returns one element per position. -/
theorem npTake_length {α : Type} {xs : List α} {is0 : List Int} {ys : List α}
    (h : npTake xs is0 = some ys) : ys.length = is0.length :=
  omapM_length _ h

/-- Fancy indexing yields elements of the source list. -/
theorem npTake_mem {α : Type} {xs : List α} {is0 : List Int} {ys : List α}
    (h : npTake xs is0 = some ys) : ∀ y ∈ ys, y ∈ xs := by
  intro y hy
  obtain ⟨i, hi, hget⟩ := omapM_mem _ h y hy
  exact npGet_mem hget

/-- An optional take with no positions keeps the list whole. -/
theorem optTake_none_eq {β : Type} {xs ys : List β}
    (h : optTake xs none = some ys) : ys = xs := by
  simp [optTake] at h
  rw [h]

/-- An optional take with positions returns one element per position. -/
theorem optTake_some_length {β : Type} {xs ys : List β} {is0 : List Int}
    (h : optTake xs (some is0) = some ys) : ys.length = is0.length :=
  npTake_length h

/-- A 2-d subsetting result comes from a 2-d parameter. -/
theorem subsetParam_d2_source {α : Type} {p : PParam α} {r c : Option (List Int)}
    {zss : List (List α)} (h : subsetParam p r c = some (PParam.d2 zss)) :
    ∃ xss, p = PParam.d2 xss := by
  cases p with
  | d2 xss => exact ⟨xss, rfl⟩
  | d1 xs =>
    exfalso
    cases r with
    | none => simp [subsetParam] at h
    | some rs => cases hn : npTake xs rs <;> simp [subsetParam, hn] at h
  | d0 a =>
    exfalso
    cases r <;> cases c <;> simp [subsetParam] at h
  | cfg s =>
    exfalso
    cases r <;> cases c <;> simp [subsetParam] at h

/-- Dimensions of a successful 2-d subsetting: one result row per row
position (or all rows), and each result row is either as wide as the
column position list or an untouched source row. -/
theorem subsetParam_d2_dims {α : Type} {xss zss : List (List α)}
    {r c : Option (List Int)}
    (h : subsetParam (PParam.d2 xss) r c = some (PParam.d2 zss)) :
    zss.length = (match r with | some rs => rs.length | none => xss.length)
    ∧ ∀ z ∈ zss,
        (∃ cs, c = some cs ∧ z.length = cs.length) ∨ (c = none ∧ z ∈ xss) := by
  cases r with
  | none =>
    cases c with
    | none =>
      simp [subsetParam] at h
      subst h
      exact ⟨rfl, fun z hz => Or.inr ⟨rfl, hz⟩⟩
    | some cs =>
      cases ho : omapM (fun row => npTake row cs) xss with
      | none => simp [subsetParam, ho] at h
      | some out =>
        simp [subsetParam, ho] at h
        subst h
        refine ⟨omapM_length _ ho, ?_⟩
        intro z hz
        obtain ⟨row, hrow, hz2⟩ := omapM_mem _ ho z hz
        exact Or.inl ⟨cs, rfl, npTake_length hz2⟩
  | some rs =>
    cases hn : npTake xss rs with
    | none =>
      cases c <;> simp [subsetParam, hn] at h
    | some rows =>
      cases c with
      | none =>
        simp [subsetParam, hn] at h
        subst h
        refine ⟨npTake_length hn, ?_⟩
        intro z hz
        exact Or.inr ⟨rfl, npTake_mem hn z hz⟩
      | some cs =>
        cases ho : omapM (fun row => npTake row cs) rows with
        | none => simp [subsetParam, hn, ho] at h
        | some out =>
          simp [subsetParam, hn, ho] at h
          subst h
          refine ⟨by rw [omapM_length _ ho, npTake_length hn], ?_⟩
          intro z hz
          obtain ⟨row, hrow, hz2⟩ := omapM_mem _ ho z hz
          exact Or.inl ⟨cs, rfl, npTake_length hz2⟩

/-- Position-based selection preserves the shape invariant. -/
theorem shapeInvariant_iloc {ρ κ α : Type} {t u : BaseTFProba ρ κ α}
    {r c : Option (List Int)} (hinv : shapeInvariant t) (h : t.iloc r c = some u) :
    shapeInvariant u := by
  obtain ⟨sp, ix, cols, hsp, hix, hcols, rfl⟩ := iloc_inv h
  intro pr2 hpr2
  rw [subsetParams] at hsp
  obtain ⟨pr, hprF, hf⟩ := omapM_mem _ hsp pr2 hpr2
  rw [Option.map_eq_some'] at hf
  obtain ⟨q, hq, rfl⟩ := hf
  have hprT : pr ∈ t.distr.params := (List.mem_filter.mp hprF).1
  have hshape := hinv pr hprT
  show PParam.hasShape2 q ix.length cols.length
  cases q with
  | d0 a => trivial
  | d1 xs => trivial
  | cfg s => trivial
  | d2 zss =>
    obtain ⟨xss, hxss⟩ := subsetParam_d2_source hq
    rw [hxss] at hq hshape
    obtain ⟨hxlen, hxrows⟩ := hshape
    obtain ⟨hdims, hzrows⟩ := subsetParam_d2_dims hq
    constructor
    · cases r with
      | none =>
        rw [optTake_none_eq hix]
        exact hdims.trans hxlen
      | some rs =>
        rw [optTake_some_length hix]
        exact hdims
    · intro z hz
      rcases hzrows z hz with ⟨cs, hcs, hzl⟩ | ⟨hcs, hzmem⟩
      · subst hcs
        rw [hzl, optTake_some_length hcols]
      · subst hcs
        rw [optTake_none_eq hcols]
        exact hxrows z hzmem

/-- A successful row expansion has exactly the target width. -/
theorem expandRowTo_length {α : Type} {m : Nat} {xs ys : List α}
    (h : expandRowTo m xs = some ys) : ys.length = m := by
  unfold expandRowTo at h
  split at h
  next hc =>
    obtain rfl := Option.some.inj h
    exact hc
  next hc =>
    split at h
    · obtain rfl := Option.some.inj h
      simp
    · exact Option.noConfusion h

/-- A successful rows expansion has exactly the target row count. -/
theorem expandRowsTo_length {α : Type} {n : Nat} {xss rows : List (List α)}
    (h : expandRowsTo n xss = some rows) : rows.length = n := by
  unfold expandRowsTo at h
  split at h
  next hc =>
    obtain rfl := Option.some.inj h
    exact hc
  next hc =>
    split at h
    · obtain rfl := Option.some.inj h
      simp
    · exact Option.noConfusion h

/-- Expansion to the empty shape yields a 0-d scalar. -/
theorem expandTo_nil_d0 {α : Type} {p p2 : PParam α}
    (h : expandTo p [] = some p2) : ∃ a, p2 = PParam.d0 a := by
  cases p with
  | d0 a => exact ⟨a, (Option.some.inj h).symm⟩
  | d1 xs => exact Option.noConfusion h
  | d2 xss => exact Option.noConfusion h
  | cfg s => exact Option.noConfusion h

/-- Expansion to a one-dimensional shape yields a 1-d array of that
length. -/
theorem expandTo_one_d1 {α : Type} {p p2 : PParam α} {k : Nat}
    (h : expandTo p [k] = some p2) :
    ∃ xs : List α, p2 = PParam.d1 xs ∧ xs.length = k := by
  cases p with
  | d0 a =>
    obtain rfl := Option.some.inj h
    exact ⟨_, rfl, by simp⟩
  | d1 xs =>
    have h2 : (expandRowTo k xs).map PParam.d1 = some p2 := h
    rw [Option.map_eq_some'] at h2
    obtain ⟨row, hrow, rfl⟩ := h2
    exact ⟨row, rfl, expandRowTo_length hrow⟩
  | d2 xss => exact Option.noConfusion h
  | cfg s => exact Option.noConfusion h

/-- Expansion to a two-dimensional shape yields a 2-d array of exactly
those dimensions. -/
theorem expandTo_two_d2 {α : Type} {p p2 : PParam α} {n m : Nat}
    (h : expandTo p [n, m] = some p2) :
    ∃ xss, p2 = PParam.d2 xss ∧ xss.length = n ∧ ∀ row ∈ xss, row.length = m := by
  cases p with
  | d0 a =>
    obtain rfl := Option.some.inj h
    refine ⟨_, rfl, by simp, ?_⟩
    intro row hrow
    rw [List.eq_of_mem_replicate hrow]
    simp
  | d1 xs =>
    have h2 : (expandRowTo m xs).map (fun row => PParam.d2 (List.replicate n row)) =
        some p2 := h
    rw [Option.map_eq_some'] at h2
    obtain ⟨row, hrow, rfl⟩ := h2
    refine ⟨_, rfl, by simp, ?_⟩
    intro r0 hr0
    rw [List.eq_of_mem_replicate hr0]
    exact expandRowTo_length hrow
  | d2 xss =>
    have h2 : (expandRowsTo n xss).bind
        (fun rows => (omapM (expandRowTo m) rows).map PParam.d2) = some p2 := h
    rw [Option.bind_eq_some] at h2
    obtain ⟨rows, hrows, h3⟩ := h2
    rw [Option.map_eq_some'] at h3
    obtain ⟨out, hout, rfl⟩ := h3
    refine ⟨out, rfl, by rw [omapM_length _ hout, expandRowsTo_length hrows], ?_⟩
    intro row hrow
    obtain ⟨src, hsrc, hexp⟩ := omapM_mem _ hout row hrow
    exact expandRowTo_length hexp
  | cfg s => exact Option.noConfusion h

/-- The numpy shape of a well-formed nonempty 2-d nesting. -/
theorem bcShapeOf_cons {α : Type} (r0 : List α) (rest : List (List α))
    (hcond : rest.all (fun rr => rr.length == r0.length) = true) :
    bcShapeOf (PParam.d2 (r0 :: rest)) = some [(r0 :: rest).length, r0.length] := by
  simp only [bcShapeOf]
  rw [if_pos hcond]

/-- Length of a default RangeIndex. -/
theorem rangeInt_length (n : Nat) : (rangeInt n).length = n := by
  simp [rangeInt]

/-- C6 counterexample: the native Normal constructor stores explicitly
passed labels without validating them against the broadcast parameter
shape: with a 2 by 2 mean, a scalar sd and a 3-element explicit index,
construction succeeds, the shape property reads (3, 2), yet the broadcast
mean is a 2-d array of shape (2, 2), so the claimed invariant fails for
this constructed table. -/
theorem c6_shape_counterexample :
    NormalTable.make (PParam.d2 [[(0 : Int), 1], [2, 3]]) (PParam.d0 1)
        (some [1, 2, 5]) none = some nBad
    ∧ nBad.shape = (3, 2)
    ∧ ¬ PParam.hasShape2 nBad.bc_mu 3 2 :=
  ⟨by decide, by decide, by decide⟩

/-- C6 amended: the shape property always equals the pair of label
lengths; for a native Normal constructed with both labels defaulted, the
broadcast parameter arrays are 2-d of exactly that shape; and
position-based selection preserves the shape invariant. When labels are
passed explicitly the constructor stores them unvalidated, so the
parameter-shape half of the claim can fail there. -/
theorem c6_shape_invariant_default_labels {ρ κ α : Type} :
    (∀ t : BaseTFProba ρ κ α, t.shape = (t.index.length, t.columns.length))
    ∧ (∀ (mu sigma : PParam α) (t : NormalTable α),
        NormalTable.make mu sigma none none = some t →
        t.shape = (t.index.length, t.columns.length)
        ∧ PParam.hasShape2 t.bc_mu t.index.length t.columns.length
        ∧ PParam.hasShape2 t.bc_sigma t.index.length t.columns.length)
    ∧ (∀ (t u : BaseTFProba ρ κ α) (r c : Option (List Int)),
        shapeInvariant t → t.iloc r c = some u → shapeInvariant u) := by
  refine ⟨fun t => rfl, ?_, fun t u r c hinv h => shapeInvariant_iloc hinv h⟩
  intro mu sigma t h
  rw [NormalTable.make, Option.bind_eq_some] at h
  obtain ⟨bc, hbc, h⟩ := h
  rw [Option.bind_eq_some] at h
  obtain ⟨sh, hsh, h⟩ := h
  rw [Option.bind_eq_some] at h
  obtain ⟨ix, hix, h⟩ := h
  rw [Option.map_eq_some'] at h
  obtain ⟨cols, hcols, ht⟩ := h
  subst ht
  have hix2 : (sh[0]?).map rangeInt = some ix := hix
  have hcols2 : (sh[1]?).map rangeInt = some cols := hcols
  rw [Option.map_eq_some'] at hix2 hcols2
  obtain ⟨n0, hn0, hix3⟩ := hix2
  obtain ⟨n1, hn1, hcols3⟩ := hcols2
  subst hix3
  subst hcols3
  refine ⟨rfl, ?_⟩
  rw [broadcast2, Option.bind_eq_some] at hbc
  obtain ⟨sp, hsp, hbc⟩ := hbc
  rw [Option.bind_eq_some] at hbc
  obtain ⟨sq, hsq, hbc⟩ := hbc
  rw [Option.bind_eq_some] at hbc
  obtain ⟨sh0, hsh0, hbc⟩ := hbc
  rw [Option.bind_eq_some] at hbc
  obtain ⟨p2, hp2, hbc⟩ := hbc
  rw [Option.map_eq_some'] at hbc
  obtain ⟨q2, hq2, hbceq⟩ := hbc
  subst hbceq
  have hshp : bcShapeOf p2 = some sh := hsh
  show PParam.hasShape2 p2 (rangeInt n0).length (rangeInt n1).length ∧
       PParam.hasShape2 q2 (rangeInt n0).length (rangeInt n1).length
  simp only [rangeInt_length]
  cases sh0 with
  | nil =>
    obtain ⟨a, rfl⟩ := expandTo_nil_d0 hp2
    have hshe : ([] : List Nat) = sh := Option.some.inj hshp
    rw [← hshe] at hn0
    exact absurd hn0 (by simp)
  | cons s1 tail =>
    cases tail with
    | nil =>
      obtain ⟨xs, rfl, hlen⟩ := expandTo_one_d1 hp2
      have hshe : [xs.length] = sh := Option.some.inj hshp
      rw [← hshe] at hn1
      exact absurd hn1 (by simp)
    | cons s2 tail2 =>
      cases tail2 with
      | cons s3 rest =>
        exact Option.noConfusion hp2
      | nil =>
        obtain ⟨xss, rfl, hxlen, hxrows⟩ := expandTo_two_d2 hp2
        obtain ⟨yss, rfl, hylen, hyrows⟩ := expandTo_two_d2 hq2
        cases xss with
        | nil =>
          have hshe : [0, 0] = sh := Option.some.inj hshp
          rw [← hshe] at hn0 hn1
          have hn0e : n0 = 0 := by simpa using hn0.symm
          have hn1e : n1 = 0 := by simpa using hn1.symm
          subst hn0e
          subst hn1e
          have hs1 : s1 = 0 := by simpa using hxlen.symm
          have hye : yss = [] := by
            rw [← List.length_eq_zero, hylen, hs1]
          subst hye
          exact ⟨⟨rfl, fun row hrow => absurd hrow (List.not_mem_nil row)⟩,
                 ⟨rfl, fun row hrow => absurd hrow (List.not_mem_nil row)⟩⟩
        | cons r0 rest0 =>
          have hr0 : r0.length = s2 := hxrows r0 (List.mem_cons_self _ _)
          have hcond : rest0.all (fun rr => rr.length == r0.length) = true := by
            rw [List.all_eq_true]
            intro rr hrr
            have h1 : rr.length = s2 := hxrows rr (List.mem_cons_of_mem _ hrr)
            simp [h1, hr0]
          have hsh2 : bcShapeOf (PParam.d2 (r0 :: rest0)) =
              some [(r0 :: rest0).length, r0.length] := bcShapeOf_cons r0 rest0 hcond
          rw [hshp] at hsh2
          have hsh3 : sh = [(r0 :: rest0).length, r0.length] := Option.some.inj hsh2
          subst hsh3
          have hn0e : n0 = (r0 :: rest0).length := by simpa using hn0.symm
          have hn1e : n1 = r0.length := by simpa using hn1.symm
          subst hn0e
          subst hn1e
          refine ⟨⟨rfl, fun row hrow => (hxrows row hrow).trans hr0.symm⟩, ?_, ?_⟩
          · exact hylen.trans hxlen.symm
          · intro row hrow
            exact (hyrows row hrow).trans hr0.symm

/-- Witness for the amended C6 at the concrete default-label Normal and
a concrete selection on the tfp-backed table. -/
theorem c6_shape_invariant_default_labels_witness :
    (nGood.shape = (nGood.index.length, nGood.columns.length)
      ∧ PParam.hasShape2 nGood.bc_mu nGood.index.length nGood.columns.length
      ∧ PParam.hasShape2 nGood.bc_sigma nGood.index.length nGood.columns.length)
    ∧ shapeInvariant tfdN32midRow :=
  ⟨(@c6_shape_invariant_default_labels Int Int Int).2.1
      (PParam.d2 [[0, 1], [2, 3], [4, 5]]) (PParam.d0 1) nGood (by decide),
   (@c6_shape_invariant_default_labels Int Int Int).2.2 tfdN32 tfdN32midRow
      (some [1]) none (by decide) (by decide)⟩
